import Mathlib

/-!
Verification of the finite-automata minimizer (`finite_automata.py`, `mka.py`)
against its natural-language specification.

The Python module is shallowly embedded below.  Conventions of the embedding:

* Python strings are `String` / `List Char`; Python sets are `Finset`;
  Python `None`-able results are `Option`; raised exceptions are `Except PyErr`.
* The module's regular expressions (`_fsm_state_pattern`, `_fsm_sym_pattern`,
  `_fsm_rule_pattern`, `_fsm_pattern`, and the per-section list patterns) are
  embedded as hand-written backtracking matchers that enumerate candidate
  matches in the same priority order as Python's leftmost/greedy backtracking
  engine.  Character classes are the ASCII fragments actually exercised by the
  grammar (`\s`, `\d`, `[a-zA-Z]`, `\w`).
* Python set iteration order is unspecified (hash-based); wherever the code
  iterates over a set (`for rule in self.rules`, `for symbol in self.alphabet`,
  `for Q1 in Qm`), the embedding iterates in sorted order, the canonical
  deterministic choice.  This is noted again at each such place.
-/

/-- Python `\s` on the ASCII range: the whitespace characters the grammar uses. -/
def isSpaceChar (c : Char) : Bool :=
  c = ' ' || c = '\t' || c = '\n' || c = '\r' || c = '\x0b' || c = '\x0c'

/-- Python `[a-zA-Z]`. -/
def isLetterChar (c : Char) : Bool :=
  ('a' ≤ c && c ≤ 'z') || ('A' ≤ c && c ≤ 'Z')

/-- Python `\d` (ASCII). -/
def isDigitChar (c : Char) : Bool :=
  '0' ≤ c && c ≤ '9'

/-- Python `[a-zA-Z_\d]` (ASCII `\w`). -/
def isWordChar (c : Char) : Bool :=
  isLetterChar c || isDigitChar c || c = '_'

/-- Python `[a-zA-Z\d]` (ASCII alphanumeric). -/
def isAlnumChar (c : Char) : Bool :=
  isLetterChar c || isDigitChar c

/-- Candidate matches of `_fsm_state_pattern = ([a-zA-Z](?:[a-zA-Z_\d]*[a-zA-Z\d])?)`
at the head of the input, as (captured, rest) pairs in the regex engine's
priority order: the greedy optional tail longest first, the bare letter last. -/
def stateCandidates : List Char → List (List Char × List Char)
  | [] => []
  | c :: rest =>
    if isLetterChar c then
      let run := rest.takeWhile isWordChar
      let after := rest.dropWhile isWordChar
      let ks := (((List.range run.length).map (· + 1)).filter
        (fun k => isAlnumChar (run.getD (k - 1) ' '))).reverse
      (ks.map (fun k => (c :: run.take k, run.drop k ++ after))) ++ [([c], rest)]
    else []

/-- Candidate matches of `_fsm_sym_pattern = ('{2,4}|'[^']')` at the head of
the input, in priority order: the greedy apostrophe run (4, then 3, then 2
apostrophes), then the quoted single character alternative. -/
def symCandidates (cs : List Char) : List (List Char × List Char) :=
  let n := (cs.takeWhile (· = '\x27')).length
  let first := (([4, 3, 2].filter (· ≤ n)).map (fun k => (cs.take k, cs.drop k)))
  let second := match cs with
    | q1 :: c :: q2 :: rest =>
      if q1 = '\x27' && q2 = '\x27' && c ≠ '\x27' then [([q1, c, q2], rest)] else []
    | _ => []
  first ++ second

/-- Candidate matches of `_fsm_rule_pattern = STATE \s* SYM \s*->\s* STATE` at
the head of the input: ((group 1, group 2, group 3), whole match, rest) in
priority order.  The `\s*` gaps are taken maximally, which is faithful because
none of the tokens that follow them can start with whitespace. -/
def ruleCandidates (cs : List Char) :
    List ((List Char × List Char × List Char) × List Char × List Char) :=
  (stateCandidates cs).flatMap fun p1 =>
    let ws1 := p1.2.takeWhile isSpaceChar
    let r1 := p1.2.dropWhile isSpaceChar
    (symCandidates r1).flatMap fun p2 =>
      let ws2 := p2.2.takeWhile isSpaceChar
      let r2 := p2.2.dropWhile isSpaceChar
      match r2 with
      | '-' :: '>' :: r3 =>
        let ws3 := r3.takeWhile isSpaceChar
        let r3' := r3.dropWhile isSpaceChar
        (stateCandidates r3').map fun p3 =>
          ((p1.1, p2.1, p3.1),
           p1.1 ++ ws1 ++ p2.1 ++ ws2 ++ ['-', '>'] ++ ws3 ++ p3.1,
           p3.2)
      | _ => []

/-- Does `^(\s*ITEM\s*,)*\s*ITEM\s*$` match the whole input?  `itemAt` lists an
item's candidate matches (consumed, rest) at the head of the input; every item
consumes at least one character, so `fuel = length + 1` suffices. -/
def listMatchAux (itemAt : List Char → List (List Char × List Char)) :
    Nat → List Char → Bool
  | 0, _ => false
  | fuel + 1, cs =>
    let cs' := cs.dropWhile isSpaceChar
    (itemAt cs').any fun p =>
      p.2.all isSpaceChar ||
      (match p.2.dropWhile isSpaceChar with
       | ',' :: tail => listMatchAux itemAt fuel tail
       | _ => false)

def listMatch (itemAt : List Char → List (List Char × List Char))
    (cs : List Char) : Bool :=
  listMatchAux itemAt (cs.length + 1) cs

/-- `re.finditer`: scan left to right, yielding each leftmost non-overlapping
match (the pattern's highest-priority candidate) and resuming after it. -/
def finditerAux (tryAt : List Char → Option (α × List Char)) :
    Nat → List Char → List α
  | 0, _ => []
  | _ + 1, [] => []
  | fuel + 1, cs =>
    match tryAt cs with
    | some (m, after) => m :: finditerAux tryAt fuel after
    | none => finditerAux tryAt fuel cs.tail

def finditer (tryAt : List Char → Option (α × List Char)) (cs : List Char) :
    List α :=
  finditerAux tryAt (cs.length + 1) cs

def stateItemAt (cs : List Char) : List (List Char × List Char) :=
  stateCandidates cs

def symItemAt (cs : List Char) : List (List Char × List Char) :=
  symCandidates cs

def ruleItemAt (cs : List Char) : List (List Char × List Char) :=
  (ruleCandidates cs).map fun m => (m.2.1, m.2.2)

/-- All decompositions `cs = pre ++ '}' :: post`, longest `pre` first: the
candidate captures of a greedy `(.*)\}` under `re.S`. -/
def braceSplits (cs : List Char) : List (List Char × List Char) :=
  (((List.range cs.length).filter (fun i => cs.getD i ' ' = '\x7d')).reverse).map
    (fun i => (cs.take i, cs.drop (i + 1)))

/-- Consume `\s*,\s*\{` deterministically (the delimiters are not whitespace). -/
def expectCommaBrace (cs : List Char) : Option (List Char) :=
  match cs.dropWhile isSpaceChar with
  | ',' :: r =>
    match r.dropWhile isSpaceChar with
    | '\x7b' :: r2 => some r2
    | _ => none
  | _ => none

/-- Consume `\s*,\s*` deterministically. -/
def expectComma (cs : List Char) : Option (List Char) :=
  match cs.dropWhile isSpaceChar with
  | ',' :: r => some (r.dropWhile isSpaceChar)
  | _ => none

/-- `re.match(_fsm_pattern, text, re.S)`: the anchored top-level shape
`^\s*\( \{G1\} , \{G2\} , \{G3\} , START , \{G5\} \)\s*$` with the four `(.*)`
groups greedy (longest first) and backtracking across group boundaries, in the
engine's priority order. -/
def topMatch (cs0 : List Char) :
    Option (List Char × List Char × List Char × List Char × List Char) :=
  match cs0.dropWhile isSpaceChar with
  | '(' :: r =>
    match r.dropWhile isSpaceChar with
    | '\x7b' :: r1 =>
      (braceSplits r1).findSome? fun g1 =>
        (expectCommaBrace g1.2).bind fun r3 =>
        (braceSplits r3).findSome? fun g2 =>
        (expectCommaBrace g2.2).bind fun r5 =>
        (braceSplits r5).findSome? fun g3 =>
        (expectComma g3.2).bind fun r7 =>
        (stateCandidates r7).findSome? fun g4 =>
        (expectCommaBrace g4.2).bind fun r9 =>
        (braceSplits r9).findSome? fun g5 =>
        match g5.2.dropWhile isSpaceChar with
        | ')' :: r11 =>
          if r11.all isSpaceChar then some (g1.1, g2.1, g3.1, g4.1, g5.1)
          else none
        | _ => none
    | _ => none
  | _ => none

/-- Skip to (and keep) the next newline: the effect of `#.*$` consuming the
rest of a line under `re.MULTILINE`. -/
def dropToNewline : List Char → List Char
  | [] => []
  | '\n' :: rest => '\n' :: rest
  | _ :: rest => dropToNewline rest

/-- `re.sub(r"(?<!')#.*$", '', text, flags=re.MULTILINE)`: delete every `#`
that is not immediately preceded by an apostrophe together with the rest of
its line. -/
def stripCommentsAux : Nat → Option Char → List Char → List Char
  | 0, _, cs => cs
  | _ + 1, _, [] => []
  | fuel + 1, prev, c :: rest =>
    if c = '#' && prev ≠ some '\x27' then
      stripCommentsAux fuel prev (dropToNewline rest)
    else
      c :: stripCommentsAux fuel (some c) rest

def stripComments (cs : List Char) : List Char :=
  stripCommentsAux (2 * cs.length + 2) none cs

/-- The exceptions the module can surface: `FASyntaxException`,
`FASemanticException`, the `FAException` raised by the well-specified
constructor, and the built-in Python errors that escape uncaught
(`IndexError` from a bad `str.format` call, `KeyError` from `set.remove`). -/
inductive PyErr where
  | synErr (msg : String)
  | semErr (msg : String)
  | notWellSpec (msg : String)
  | indexError
  | keyError
deriving DecidableEq, Repr

/-- The `Rule` class: an (state, input_symbol, next_state) triple with
value equality. -/
structure PyRule where
  state : String
  input_symbol : String
  next_state : String
deriving DecidableEq, Repr

/-- `Rule.__str__`: `'{} \'{}\' -> {}'.format(state, input_symbol, next_state)`. -/
def PyRule.str (r : PyRule) : String :=
  r.state ++ " \x27" ++ r.input_symbol ++ "\x27 -> " ++ r.next_state

/-- Lexicographic strict order on character lists (Python string `<`),
written structurally so that the kernel can evaluate it. -/
def listCharLt : List Char → List Char → Bool
  | [], [] => false
  | [], _ :: _ => true
  | _ :: _, [] => false
  | a :: as, b :: bs => if a < b then true else if b < a then false else listCharLt as bs

/-- Lexicographic order (reflexive) on character lists. -/
def listCharLe : List Char → List Char → Bool
  | [], _ => true
  | _ :: _, [] => false
  | a :: as, b :: bs => if a < b then true else if b < a then false else listCharLe as bs

def strLtB (a b : String) : Bool := listCharLt a.data b.data

def strLeB (a b : String) : Bool := listCharLe a.data b.data

/-- The sorting relation on strings used wherever Python sorts strings
(`sorted`, `list.sort`): lexicographic by code point. -/
def strSortRel (a b : String) : Prop := strLeB a b = true

instance : DecidableRel strSortRel := fun a b =>
  inferInstanceAs (Decidable (strLeB a b = true))

theorem listCharLt_asymm : ∀ {a b : List Char},
    listCharLt a b = true → listCharLt b a = false := by
  intro a
  induction a with
  | nil => intro b h; cases b <;> simp [listCharLt] at h ⊢
  | cons x xs ih =>
    intro b h
    cases b with
    | nil => simp [listCharLt] at h
    | cons y ys =>
      simp only [listCharLt] at h ⊢
      rcases lt_trichotomy x y with hlt | heq | hgt
      · simp [hlt, asymm hlt, not_lt_of_gt hlt]
      · subst heq; simp only [lt_irrefl, if_false] at h ⊢; exact ih h
      · simp [hgt, asymm hgt, not_lt_of_gt hgt] at h

theorem listCharLe_iff : ∀ {a b : List Char},
    listCharLe a b = true ↔ (listCharLt b a = false) := by
  intro a
  induction a with
  | nil => intro b; cases b <;> simp [listCharLe, listCharLt]
  | cons x xs ih =>
    intro b
    cases b with
    | nil => simp [listCharLe, listCharLt]
    | cons y ys =>
      simp only [listCharLe, listCharLt]
      rcases lt_trichotomy x y with hlt | heq | hgt
      · simp [hlt, asymm hlt, not_lt_of_gt hlt]
      · subst heq; simp only [lt_irrefl, if_false]; exact ih
      · simp [hgt, asymm hgt, not_lt_of_gt hgt]

theorem listCharLe_total (a b : List Char) :
    listCharLe a b = true ∨ listCharLe b a = true := by
  by_cases h : listCharLe a b = true
  · exact Or.inl h
  · refine Or.inr ?_
    rw [listCharLe_iff]
    rw [listCharLe_iff] at h
    simpa using listCharLt_asymm (by simpa using h)

theorem listCharLe_antisymm : ∀ {a b : List Char},
    listCharLe a b = true → listCharLe b a = true → a = b := by
  intro a
  induction a with
  | nil => intro b _ hba; cases b with
    | nil => rfl
    | cons y ys => simp [listCharLe] at hba
  | cons x xs ih =>
    intro b hab hba
    cases b with
    | nil => simp [listCharLe] at hab
    | cons y ys =>
      simp only [listCharLe] at hab hba
      rcases lt_trichotomy x y with hlt | heq | hgt
      · simp [hlt, asymm hlt, not_lt_of_gt hlt] at hba
      · subst heq
        simp only [lt_irrefl, if_false] at hab hba
        exact congrArg (x :: ·) (ih hab hba)
      · simp [hgt, asymm hgt, not_lt_of_gt hgt] at hab

theorem listCharLe_trans : ∀ {a b c : List Char},
    listCharLe a b = true → listCharLe b c = true → listCharLe a c = true := by
  intro a
  induction a with
  | nil => intro b c _ _; cases c <;> simp [listCharLe]
  | cons x xs ih =>
    intro b c hab hbc
    cases b with
    | nil => simp [listCharLe] at hab
    | cons y ys =>
      cases c with
      | nil => simp [listCharLe] at hbc
      | cons z zs =>
        simp only [listCharLe] at hab hbc ⊢
        rcases lt_trichotomy x y with hxy | hxy | hxy
        · rcases lt_trichotomy y z with hyz | hyz | hyz
          · simp [lt_trans hxy hyz]
          · subst hyz; simp [hxy]
          · simp [hyz, asymm hyz, not_lt_of_gt hyz] at hbc
        · subst hxy
          rcases lt_trichotomy x z with hyz | hyz | hyz
          · simp [hyz]
          · subst hyz
            simp only [lt_irrefl, if_false] at hab hbc ⊢
            exact ih hab hbc
          · simp [hyz, asymm hyz, not_lt_of_gt hyz] at hbc
        · simp [hxy, asymm hxy, not_lt_of_gt hxy] at hab

instance : IsTrans String strSortRel :=
  ⟨fun _ _ _ hab hbc => listCharLe_trans hab hbc⟩

instance : IsAntisymm String strSortRel :=
  ⟨fun a b hab hba => by
    cases a; cases b
    exact congrArg String.mk (listCharLe_antisymm hab hba)⟩

instance : IsTotal String strSortRel :=
  ⟨fun a b => listCharLe_total a.data b.data⟩

/-- The sorting relation on rules: lexicographic by the
(state, input_symbol, next_state) triple (the embedding's canonical rule-set
iteration order; Python's set order is unspecified). -/
def ruleLeB (r s : PyRule) : Bool :=
  if strLtB r.state s.state then true
  else if strLtB s.state r.state then false
  else if strLtB r.input_symbol s.input_symbol then true
  else if strLtB s.input_symbol r.input_symbol then false
  else strLeB r.next_state s.next_state

def ruleSortRel (r s : PyRule) : Prop := ruleLeB r s = true

instance : DecidableRel ruleSortRel := fun a b =>
  inferInstanceAs (Decidable (ruleLeB a b = true))

theorem strLtB_asymm {a b : String} (h : strLtB a b = true) : strLtB b a = false :=
  listCharLt_asymm h

theorem strLtB_irrefl_eq {a b : String} (h1 : strLtB a b = false)
    (h2 : strLtB b a = false) : a = b := by
  cases a; cases b
  refine congrArg String.mk (listCharLe_antisymm ?_ ?_) <;>
    rw [listCharLe_iff] <;> assumption

theorem strLtB_trans {a b c : String} (h1 : strLtB a b = true)
    (h2 : strLtB b c = true) : strLtB a c = true := by
  by_contra h
  have h' : listCharLe c.data a.data = true := by
    rw [listCharLe_iff]
    simpa using h
  have hab : listCharLe a.data b.data = true := by
    rw [listCharLe_iff]; exact listCharLt_asymm h1
  have hca : listCharLe c.data b.data = true := listCharLe_trans h' hab
  rw [listCharLe_iff] at hca
  exact absurd h2 (by simp [strLtB, hca])

/-- One lexicographic comparison level: compare the `f`-keys strictly, fall
through to `rest` when they tie. -/
def lexStep (f : α → String) (rest : α → α → Bool) (a b : α) : Bool :=
  if strLtB (f a) (f b) then true
  else if strLtB (f b) (f a) then false
  else rest a b

theorem lexStep_true_iff (f : α → String) (rest : α → α → Bool) (a b : α) :
    lexStep f rest a b = true ↔
      strLtB (f a) (f b) = true ∨
        (strLtB (f a) (f b) = false ∧ strLtB (f b) (f a) = false ∧
          rest a b = true) := by
  unfold lexStep
  rcases h1 : strLtB (f a) (f b) with _ | _ <;>
    rcases h2 : strLtB (f b) (f a) with _ | _ <;> simp [h1, h2]

theorem lexStep_trans (f : α → String) (rest : α → α → Bool)
    (hrest : ∀ a b c, rest a b = true → rest b c = true → rest a c = true)
    (a b c : α) (hab : lexStep f rest a b = true) (hbc : lexStep f rest b c = true) :
    lexStep f rest a c = true := by
  rw [lexStep_true_iff] at hab hbc ⊢
  rcases hab with hab | ⟨hab1, hab2, hab3⟩
  · rcases hbc with hbc | ⟨hbc1, hbc2, hbc3⟩
    · exact Or.inl (strLtB_trans hab hbc)
    · rw [← strLtB_irrefl_eq hbc1 hbc2]
      exact Or.inl hab
  · rcases hbc with hbc | ⟨hbc1, hbc2, hbc3⟩
    · rw [strLtB_irrefl_eq hab1 hab2]
      exact Or.inl hbc
    · rw [strLtB_irrefl_eq hab1 hab2, strLtB_irrefl_eq hbc1 hbc2]
      refine Or.inr ⟨?_, ?_, hrest a b c hab3 hbc3⟩ <;>
        · by_contra h
          have h' := strLtB_asymm (eq_true_of_ne_false h)
          simp_all

theorem lexStep_total (f : α → String) (rest : α → α → Bool)
    (hrest : ∀ a b, rest a b = true ∨ rest b a = true) (a b : α) :
    lexStep f rest a b = true ∨ lexStep f rest b a = true := by
  rw [lexStep_true_iff, lexStep_true_iff]
  rcases h1 : strLtB (f a) (f b) with _ | _
  · rcases h2 : strLtB (f b) (f a) with _ | _
    · rcases hrest a b with h | h
      · exact Or.inl (Or.inr ⟨rfl, rfl, h⟩)
      · exact Or.inr (Or.inr ⟨rfl, rfl, h⟩)
    · exact Or.inr (Or.inl rfl)
  · exact Or.inl (Or.inl rfl)

theorem lexStep_antisymm (f : α → String) (rest : α → α → Bool)
    (a b : α) (hab : lexStep f rest a b = true) (hba : lexStep f rest b a = true) :
    f a = f b ∧ rest a b = true ∧ rest b a = true := by
  rw [lexStep_true_iff] at hab hba
  rcases hab with hab | ⟨hab1, hab2, hab3⟩
  · rcases hba with hba | ⟨hba1, hba2, hba3⟩
    · have := strLtB_asymm hab
      simp_all
    · simp_all
  · rcases hba with hba | ⟨hba1, hba2, hba3⟩
    · simp_all
    · exact ⟨strLtB_irrefl_eq hab1 hab2, hab3, hba3⟩

theorem strLeB_refl (a : String) : strLeB a a = true := by
  rcases listCharLe_total a.data a.data with h | h <;> exact h

theorem ruleLeB_eq_lexStep : ruleLeB =
    lexStep (fun r : PyRule => r.state)
      (lexStep (fun r : PyRule => r.input_symbol)
        (fun r s => strLeB r.next_state s.next_state)) := by
  funext r s
  simp [ruleLeB, lexStep]

instance : IsTrans PyRule ruleSortRel := by
  constructor
  intro a b c hab hbc
  unfold ruleSortRel at *
  rw [ruleLeB_eq_lexStep] at *
  refine lexStep_trans _ _ ?_ a b c hab hbc
  intro a b c
  refine lexStep_trans _ _ ?_ a b c
  intro a b c h1 h2
  exact listCharLe_trans h1 h2

instance : IsTotal PyRule ruleSortRel := by
  constructor
  intro a b
  unfold ruleSortRel
  rw [ruleLeB_eq_lexStep]
  refine lexStep_total _ _ ?_ a b
  intro a b
  refine lexStep_total _ _ ?_ a b
  intro a b
  exact listCharLe_total a.next_state.data b.next_state.data

instance : IsAntisymm PyRule ruleSortRel := by
  constructor
  intro a b hab hba
  unfold ruleSortRel at *
  rw [ruleLeB_eq_lexStep] at *
  obtain ⟨e1, hab, hba⟩ := lexStep_antisymm _ _ _ _ hab hba
  obtain ⟨e2, hab, hba⟩ := lexStep_antisymm _ _ _ _ hab hba
  have e3 : a.next_state = b.next_state := by
    cases a_eq : a.next_state; cases b_eq : b.next_state
    rw [a_eq, b_eq] at hab hba
    exact congrArg String.mk (listCharLe_antisymm hab hba)
  cases a; cases b
  simp_all

/-- Sort a multiset of strings into a list (Python `sorted`).  Insertion sort
is used so that the kernel can evaluate it; the value is independent of the
representative list because the order is total, transitive and antisymmetric. -/
def msortStr (s : Multiset String) : List String :=
  Quot.liftOn s (fun l => List.insertionSort strSortRel l) (fun l1 l2 h => by
    have hp : l1.Perm l2 := h
    exact List.eq_of_perm_of_sorted
      ((List.perm_insertionSort strSortRel l1).trans
        (hp.trans (List.perm_insertionSort strSortRel l2).symm))
      (List.sorted_insertionSort strSortRel l1)
      (List.sorted_insertionSort strSortRel l2))

/-- Sort a multiset of rules into a list, by the (state, symbol, next) key. -/
def msortRule (s : Multiset PyRule) : List PyRule :=
  Quot.liftOn s (fun l => List.insertionSort ruleSortRel l) (fun l1 l2 h => by
    have hp : l1.Perm l2 := h
    exact List.eq_of_perm_of_sorted
      ((List.perm_insertionSort ruleSortRel l1).trans
        (hp.trans (List.perm_insertionSort ruleSortRel l2).symm))
      (List.sorted_insertionSort ruleSortRel l1)
      (List.sorted_insertionSort ruleSortRel l2))

def sortedStrs (s : Finset String) : List String := msortStr s.val

def sortedRules (s : Finset PyRule) : List PyRule := msortRule s.val

/-- The five fields of a `FiniteAutomata` instance. -/
structure FA where
  states : Finset String
  alphabet : Finset String
  rules : Finset PyRule
  start_state : String
  final_states : Finset String
deriving DecidableEq

/-- `_get_input_symbol`: decode a symbol literal; `''` is epsilon (the empty
string), `'''` is the reserved marker (`None`), `''''` is a literal
apostrophe, anything else is stripped of its surrounding quotes. -/
def getInputSymbol (s : List Char) : Option (List Char) :=
  if s = ['\x27', '\x27'] then some []
  else if s = ['\x27', '\x27', '\x27'] then none
  else if s = ['\x27', '\x27', '\x27', '\x27'] then some ['\x27']
  else some (s.drop 1).dropLast

/-- A `str.format` template: literal pieces and `\x7b\x7d` auto-numbered holes. -/
inductive FmtPiece where
  | lit (s : String)
  | hole
deriving DecidableEq

/-- Python `str.format` with auto-numbered `\x7b\x7d` fields: substitutes the
arguments in order and fails (IndexError: replacement index out of range) if a
hole has no corresponding argument. -/
def pyFormat : List FmtPiece → List String → Option String
  | [], _ => some ""
  | FmtPiece.lit s :: rest, args => (pyFormat rest args).map (s ++ ·)
  | FmtPiece.hole :: _, [] => none
  | FmtPiece.hole :: rest, a :: args => (pyFormat rest args).map (a ++ ·)

/-- `_check_get_states` (also used for the final-states section): whitespace-only
content yields the empty set; otherwise the comma-list pattern must match, and
the states are collected by `finditer` over the state pattern. -/
def checkGetStates (cs : List Char) : Except PyErr (Finset String) :=
  if cs.all isSpaceChar then Except.ok ∅
  else if ¬ listMatch stateItemAt cs then Except.error (PyErr.synErr "bad states definition")
  else Except.ok
    ((finditer (fun s => (stateCandidates s).head?) cs).map
      (fun g => String.mk g)).toFinset

/-- The loop body of `_check_get_alphabet`: decode each matched literal in
order, accumulating the alphabet set; the reserved marker raises
`bad symbol "..."`. -/
def decodeAlphabet : List (List Char) → Finset String → Except PyErr (Finset String)
  | [], acc => Except.ok acc
  | m :: rest, acc =>
    match getInputSymbol m with
    | none =>
      match pyFormat [FmtPiece.lit "bad symbol \"", FmtPiece.hole, FmtPiece.lit "\""]
          [String.mk m] with
      | none => Except.error PyErr.indexError
      | some msg => Except.error (PyErr.synErr msg)
    | some sym => decodeAlphabet rest (insert (String.mk sym) acc)

/-- `_check_get_alphabet`: the comma-list of symbol literals must match (there
is no whitespace-only branch here, unlike the states section); the literals are
then collected by `finditer` and decoded by `decodeAlphabet`. -/
def checkGetAlphabet (cs : List Char) : Except PyErr (Finset String) :=
  if ¬ listMatch symItemAt cs then Except.error (PyErr.synErr "bad alphabet definition")
  else decodeAlphabet (finditer (fun s => (symCandidates s).head?) cs) ∅

/-- The rule pattern's match at the head of the input, for `finditer`:
((groups), whole match text) and the rest. -/
def ruleTryAt (cs : List Char) :
    Option (((List Char × List Char × List Char) × List Char) × List Char) :=
  (ruleCandidates cs).head?.map fun m => ((m.1, m.2.1), m.2.2)

/-- The loop body of `_check_get_rules`: decode each matched rule in order,
accumulating the rule set.  A symbol literal decoding to the reserved marker
takes the error branch whose message template has two holes but is given only
the rule text (`.format(match.group(0))` — `input_symbol_content` is passed as
the exception code argument instead), so evaluating it raises `IndexError`. -/
def decodeRules :
    List ((List Char × List Char × List Char) × List Char) → Finset PyRule →
      Except PyErr (Finset PyRule)
  | [], acc => Except.ok acc
  | (g, whole) :: rest, acc =>
    match getInputSymbol g.2.1 with
    | none =>
      match pyFormat
          [FmtPiece.lit "in rule \x27", FmtPiece.hole,
           FmtPiece.lit "\x27 bad symbol definition \"", FmtPiece.hole,
           FmtPiece.lit "\""]
          [String.mk whole] with
      | none => Except.error PyErr.indexError
      | some msg => Except.error (PyErr.synErr msg)
    | some sym =>
      decodeRules rest
        (insert (PyRule.mk (String.mk g.1) (String.mk sym) (String.mk g.2.2)) acc)

/-- `_check_get_rules`: the comma-list of rule triples must match; the rules
are then collected by `finditer` and decoded by `decodeRules`. -/
def checkGetRules (cs : List Char) : Except PyErr (Finset PyRule) :=
  if ¬ listMatch ruleItemAt cs then Except.error (PyErr.synErr "bad rules definition")
  else decodeRules (finditer ruleTryAt cs) ∅

/-- `FiniteAutomata._check_semantic`, iterating the rule set in the embedding's
sorted order (Python's set order is unspecified; only which rule's message is
reported first can differ, not whether checking succeeds). -/
def checkSemanticRules (fa : FA) : List PyRule → Except PyErr Unit
  | [] => Except.ok ()
  | r :: rest =>
    if r.input_symbol ∉ fa.alphabet then
      Except.error (PyErr.semErr
        ("unrecognized input symbol \x27" ++ r.input_symbol ++ "\x27 in rule \x27"
          ++ r.str ++ "\x27"))
    else if r.state ∉ fa.states then
      Except.error (PyErr.semErr
        ("unrecognized state \x27" ++ r.state ++ "\x27 in rule \x27" ++ r.str ++ "\x27"))
    else if r.next_state ∉ fa.states then
      Except.error (PyErr.semErr
        ("unrecognized next state \x27" ++ r.next_state ++ "\x27 in rule \x27"
          ++ r.str ++ "\x27"))
    else if ¬ fa.final_states ⊆ fa.states then
      Except.error (PyErr.semErr "final states is not subset of states")
    else
      checkSemanticRules fa rest

def checkSemantic (fa : FA) : Except PyErr Unit :=
  if fa.start_state ∉ fa.states then
    Except.error (PyErr.semErr
      ("unrecognized start state \x27" ++ fa.start_state ++ "\x27"))
  else
    checkSemanticRules fa (sortedRules fa.rules)

/-- The `FiniteAutomata` constructor: strip comments, match the top-level
shape, parse the four bracketed sections and the start state, and run the
semantic checks. -/
def FiniteAutomata.build (content : String) : Except PyErr FA := do
  let cs := stripComments content.toList
  match topMatch cs with
  | none => throw (PyErr.synErr "bad finite automata format")
  | some (g1, g2, g3, g4, g5) =>
    let states ← checkGetStates g1
    if states = ∅ then throw (PyErr.semErr "states set should not be empty")
    let alphabet ← checkGetAlphabet g2
    let rules ← checkGetRules g3
    if (stateCandidates g4).isEmpty then throw (PyErr.synErr "bad start symbol definition")
    let finals ← checkGetStates g5
    let fa : FA := ⟨states, alphabet, rules, String.mk g4, finals⟩
    let _ ← checkSemantic fa
    return fa

/-- Join a list of strings with a separator between consecutive elements,
as the serializer's `'{}, '.format` loops do. -/
def joinSep (sep : String) : List String → String
  | [] => ""
  | [x] => x
  | x :: rest => x ++ sep ++ joinSep sep rest

/-- `FiniteAutomata.__str__`: the canonical serializer.  States, alphabet and
final states are sorted; a literal apostrophe alphabet symbol is escaped to two
apostrophes before quoting; rules are sorted by (state, input_symbol) and
rendered by `Rule.__str__` (which does not escape the symbol). -/
def FA.toStr (fa : FA) : String :=
  let statesL := sortedStrs fa.states
  let alphaL := sortedStrs fa.alphabet
  let rulesL := sortedRules fa.rules
  let finalsL := sortedStrs fa.final_states
  let symPart := joinSep ", " (alphaL.map fun sym =>
    let sym := if sym = "\x27" then "\x27\x27" else sym
    "\x27" ++ sym ++ "\x27")
  let rulesPart := match rulesL.map PyRule.str with
    | [] => ""
    | l => joinSep ",\n" l ++ "\n"
  "(\n\x7b" ++ joinSep ", " statesL ++ "\x7d,\n\x7b" ++ symPart
    ++ "\x7d,\n\x7b\n" ++ rulesPart ++ "\x7d,\n" ++ fa.start_state
    ++ ",\n\x7b" ++ joinSep ", " finalsL ++ "\x7d\n)"

/-- `FiniteAutomata.deterministic`: no epsilon rule, and the list of
(state, input_symbol) pairs over the rule set has no duplicates (the image of
the rule set under the pair projection has full cardinality). -/
def FA.deterministic (fa : FA) : Bool :=
  if (fa.rules.filter (fun r => r.input_symbol = "")) = ∅ then
    decide (fa.rules.card =
      (fa.rules.image (fun r => (r.state, r.input_symbol))).card)
  else false

/-- `FiniteAutomata.complete`: for every state, the set of symbols on its
outgoing rules equals the alphabet. -/
def FA.complete (fa : FA) : Bool :=
  decide (∀ s ∈ fa.states,
    (fa.rules.filter (fun r => r.state = s)).image (fun r => r.input_symbol)
      = fa.alphabet)

/-- `FiniteAutomata.all_states_are_accessible`: every state other than the
start state is some rule's destination. -/
def FA.all_states_are_accessible (fa : FA) : Bool :=
  decide (∀ s ∈ fa.states,
    s = fa.start_state ∨ s ∈ fa.rules.image (fun r => r.next_state))

/-- The state of `get_nonterminating_states`' while loop: the object the
method was invoked on, the accumulating terminating set `term`, and the
shrinking private rule copy `copy_rules`. -/
structure NtsState where
  self : FA
  term : Finset String
  copyRules : Finset PyRule

/-- The rules the loop body fires in state `st` (Python's `rules_to_del`):
those whose source is not yet terminating but whose destination is. -/
def ntsFired (st : NtsState) : Finset PyRule :=
  st.copyRules.filter (fun r => r.state ∉ st.term ∧ r.next_state ∈ st.term)

/-- One iteration of the while loop: collect the fired rules (their sources
are Python's `new_term`), consume them, and merge their sources into `term`;
report whether the loop continues. -/
def ntsStep (st : NtsState) : NtsState × Bool :=
  if (ntsFired st).image (fun r => r.state) = ∅ then
    ({ st with copyRules := st.copyRules \ ntsFired st }, false)
  else
    ({ st with term := st.term ∪ (ntsFired st).image (fun r => r.state),
               copyRules := st.copyRules \ ntsFired st }, true)

def ntsIter : Nat → NtsState → NtsState
  | 0, st => st
  | fuel + 1, st =>
    if (ntsStep st).2 then ntsIter fuel (ntsStep st).1 else (ntsStep st).1

/-- `FiniteAutomata.get_nonterminating_states`, with the final object state it
leaves behind: the method reads `self` only through the two set copies, so the
object rides through the loop unmodified.  Every continuing iteration consumes
at least one rule, so `|rules| + 1` iterations always reach the fixpoint. -/
def FA.getNonterminatingStatesRun (fa : FA) : Finset String × FA :=
  let final := ntsIter (fa.rules.card + 1) ⟨fa, fa.final_states, fa.rules⟩
  (final.self.states \ final.term, final.self)

def FA.get_nonterminating_states (fa : FA) : Finset String :=
  fa.getNonterminatingStatesRun.1

/-- The acceptance test of the `WellSpecifiedFA` constructor: deterministic,
complete, all states accessible, and at most one non-terminating state. -/
def FA.wellSpecified (fa : FA) : Bool :=
  fa.deterministic && fa.complete && fa.all_states_are_accessible
    && decide (fa.get_nonterminating_states.card ≤ 1)

/-- The `WellSpecifiedFA` constructor: copy the five fields and reject the
automaton unless it is deterministic, complete, all-states-accessible, and has
at most one non-terminating state (checked in that order). -/
def WellSpecifiedFA.build (fa : FA) : Except PyErr FA :=
  if ¬ fa.deterministic then
    Except.error (PyErr.notWellSpec "not well specified: not deterministic")
  else if ¬ fa.complete then
    Except.error (PyErr.notWellSpec "not well specified: not complete")
  else if ¬ fa.all_states_are_accessible then
    Except.error (PyErr.notWellSpec "not well specified: states are not accessible")
  else if fa.get_nonterminating_states.card > 1 then
    Except.error
      (PyErr.notWellSpec "not well specified: number of nonterminating states > 1")
  else Except.ok fa

/-- Insertion with a boolean comparator (ascending). -/
def insertLe (le : α → α → Bool) (x : α) : List α → List α
  | [] => [x]
  | y :: ys => if le x y then x :: y :: ys else y :: insertLe le x ys

def sortLe (le : α → α → Bool) (l : List α) : List α :=
  l.foldr (insertLe le) []

def strLe (a b : String) : Bool := strLeB a b

/-- A frozenset of states, represented canonically as its sorted element list. -/
def blockOf (s : Finset String) : List String :=
  sortedStrs s

/-- Lexicographic order on blocks: the canonical iteration order the embedding
uses for `for Q1 in Qm` (Python set order is unspecified). -/
def blockLe : List String → List String → Bool
  | [], _ => true
  | _ :: _, [] => false
  | a :: as, b :: bs =>
    if strLtB a b then true else if strLtB b a then false else blockLe as bs

/-- Add a block to the block-set list, keeping it sorted and duplicate-free
(`set.add`). -/
def insertBlock (b : List String) : List (List String) → List (List String)
  | [] => [b]
  | q :: rest =>
    if b = q then q :: rest
    else if blockLe b q then b :: q :: rest
    else q :: insertBlock b rest

/-- `itertools.combinations(l, k)` over a list, in itertools order. -/
def combinationsL : Nat → List α → List (List α)
  | 0, _ => [[]]
  | _ + 1, [] => []
  | k + 1, x :: xs => (combinationsL k xs).map (x :: ·) ++ combinationsL (k + 1) xs

/-- `_gen_subsets`: every bipartition of the set into a nonempty combination
and its nonempty complement, sizes 1 to n-1. -/
def genSubsets (l : List String) : List (List String × List String) :=
  ((List.range l.length).drop 1).flatMap fun i =>
    (combinationsL i l).map fun sub => (sub, l.filter (· ∉ sub))

/-- `WellSpecifiedFA._get_rules_with_states_sym`. -/
def rulesWithStatesSym (rules : Finset PyRule) (states : List String)
    (symbol : String) : Finset PyRule :=
  rules.filter (fun r => r.state ∈ states ∧ r.input_symbol = symbol)

/-- `WellSpecifiedFA._get_next_states_rule_set`. -/
def nextStatesOf (rs : Finset PyRule) : Finset String :=
  rs.image (fun r => r.next_state)

/-- The inner `for q1_set, q2_set in _gen_subsets(next_states)` loop of
`minimize`: each bipartition satisfying the split condition removes the block
`X1 | X2` from the working block set (Python `set.remove` — `KeyError` if it is
absent) and adds the two source-halves, setting the division flag. -/
def applySplits (rulesQ1 : Finset PyRule) (Q1 : List String) :
    List (List String × List String) → List (List String) × Bool →
      Except PyErr (List (List String) × Bool)
  | [], acc => Except.ok acc
  | (q1s, q2s) :: rest, (upd, flag) =>
    if q1s.all (fun x => decide (x ∈ Q1)) && !(q2s.any (fun x => decide (x ∈ Q1))) then
      let X1 := blockOf ((rulesQ1.filter (fun r => r.next_state ∈ q2s)).image
        (fun r => r.state))
      let X2 := blockOf ((rulesQ1.filter (fun r => r.next_state ∈ q1s)).image
        (fun r => r.state))
      let X12 := blockOf (X1.toFinset ∪ X2.toFinset)
      if X12 ∈ upd then
        applySplits rulesQ1 Q1 rest (insertBlock X2 (insertBlock X1 (upd.erase X12)), true)
      else Except.error PyErr.keyError
    else applySplits rulesQ1 Q1 rest (upd, flag)

/-- Processing of one `Q1` from the per-symbol snapshot: singleton blocks are
skipped, otherwise the block's outgoing rules on the symbol are gathered and
every bipartition of their destination set is examined. -/
def processQ1Block (rules : Finset PyRule) (symbol : String)
    (acc : List (List String) × Bool) (Q1 : List String) :
    Except PyErr (List (List String) × Bool) :=
  if Q1.length = 1 then Except.ok acc
  else
    let rulesQ1 := rulesWithStatesSym rules Q1 symbol
    applySplits rulesQ1 Q1 (genSubsets (blockOf (nextStatesOf rulesQ1))) acc

/-- One symbol of a refinement pass: `updated_Qm` starts as a copy of the
current block set, and `for Q1 in Qm` iterates the snapshot taken at symbol
start (in the embedding's sorted order). -/
def processSymbol (rules : Finset PyRule) (qm : List (List String)) (flag : Bool)
    (symbol : String) : Except PyErr (List (List String) × Bool) :=
  qm.foldlM (processQ1Block rules symbol) (qm, flag)

/-- One full `while True` pass over the alphabet (sorted order); the division
flag starts false each pass. -/
def processPass (rules : Finset PyRule) (alphaL : List String)
    (qm : List (List String)) : Except PyErr (List (List String) × Bool) :=
  alphaL.foldlM (fun acc sym => processSymbol rules acc.1 acc.2 sym) (qm, false)

/-- The refinement loop: passes repeat until one performs no division.  The
Python loop is `while True` with no bound, so the embedding takes fuel;
`none` means the loop has not terminated within `fuel` passes. -/
def refineLoop (rules : Finset PyRule) (alphaL : List String) :
    Nat → List (List String) → Option (Except PyErr (List (List String)))
  | 0, _ => none
  | fuel + 1, qm =>
    match processPass rules alphaL qm with
    | Except.error e => some (Except.error e)
    | Except.ok (qm', true) => refineLoop rules alphaL fuel qm'
    | Except.ok (qm', false) => some (Except.ok qm')

/-- `_connect_states`: the new state named by joining the block's sorted
members with underscores (the empty block yields the empty string). -/
def connectStates (l : List String) : String :=
  joinSep "_" (sortLe strLe l)

/-- The outcome of `WellSpecifiedFA.minimize` under fuel: a rebuilt automaton,
an uncaught `KeyError`, or non-termination within the given number of passes. -/
inductive MinRes where
  | ok (fa : FA)
  | err (e : PyErr)
  | fuelOut
deriving DecidableEq

/-- The initial partition of `WellSpecifiedFA.minimize`: the final states and
their complement, as canonical blocks. -/
def initQm (fa : FA) : List (List String) :=
  insertBlock (blockOf (fa.states \ fa.final_states))
    (insertBlock (blockOf fa.final_states) [])

/-- The rebuild phase of `minimize`: from the final blocks, form the quotient
rules `Rm`, the new start state (the first block containing the old one, in
the embedding's iteration order), the new final blocks `Fm`, and replace the
automaton's states, rules and final states. -/
def rebuildFA (fa : FA) (qmF : List (List String)) : FA :=
  let alphaL := sortedStrs fa.alphabet
  let Rm : Finset PyRule := (qmF.flatMap fun X => qmF.flatMap fun Y =>
    X.flatMap fun x => Y.flatMap fun y =>
      (alphaL.filter fun sym => decide (PyRule.mk x sym y ∈ fa.rules)).map fun sym =>
        PyRule.mk (connectStates X) sym (connectStates Y)).toFinset
  let start' := match qmF.find? (fun q => decide (fa.start_state ∈ q)) with
    | some q => connectStates q
    | none => fa.start_state
  let Fm := qmF.filter (fun X => X.any (fun x => decide (x ∈ fa.final_states)))
  ⟨(qmF.map connectStates).toFinset, fa.alphabet, Rm, start',
   (Fm.map connectStates).toFinset⟩

/-- `WellSpecifiedFA.minimize`: initialize the partition with the final states
and their complement, refine until a pass makes no division, then rebuild the
automaton from the resulting blocks. -/
def FA.minimize (fa : FA) (fuel : Nat) : MinRes :=
  match refineLoop fa.rules (sortedStrs fa.alphabet) fuel (initQm fa) with
  | none => MinRes.fuelOut
  | some (Except.error e) => MinRes.err e
  | some (Except.ok qmF) => MinRes.ok (rebuildFA fa qmF)

deriving instance DecidableEq for Except

/-!  The exception-rendering model for `FAException` and its subclasses.
`FAException._base_msg` is a class attribute initialized to `fa file error: `;
`FASyntaxException.__init__` and `FASemanticException.__init__` each append
their marker to that shared attribute, and `FAException.__str__` reads the
attribute as it is at rendering time.  The class attribute is the process-wide
state; a run is summarized by the list of exception constructions performed. -/

inductive ExcKind where
  | syn
  | sem
deriving DecidableEq

/-- What one `__init__` call appends to `FAException._base_msg`. -/
def bumpMsg : ExcKind → String
  | ExcKind.syn => "syntax error: "
  | ExcKind.sem => "semantic error: "

/-- The value of `FAException._base_msg` after a history of exception
constructions (starting from the class body's `fa file error: `). -/
def baseAfter (hist : List ExcKind) : String :=
  hist.foldl (fun acc k => acc ++ bumpMsg k) "fa file error: "

/-- `FAException.__str__`: the current class-level base message followed by
the instance's `errmsg`. -/
def strException (base errmsg : String) : String :=
  base ++ errmsg

/-- The string `__str__` returns for an exception of kind `k` with message
`msg`, constructed after the constructions in `priors` already ran in the
same process (the exception's own `__init__` has also bumped the base). -/
def runStr (priors : List ExcKind) (k : ExcKind) (msg : String) : String :=
  strException (baseAfter (priors ++ [k])) msg

/-- Does a string match the full state-identifier pattern (some candidate
consumes the whole input)? -/
def matchesStateToken (s : String) : Bool :=
  (stateCandidates s.data).any (fun p => p.2.isEmpty)

/-!  Concrete inputs and automata used by the claims. -/

/-- Valid text whose alphabet and rule symbol are the literal apostrophe. -/
def txtApos : String :=
  "(\x7ba\x7d,\x7b\x27\x27\x27\x27\x7d,\x7ba \x27\x27\x27\x27 -> a\x7d,a,\x7ba\x7d)"

/-- The automaton `txtApos` constructs. -/
def faApos : FA := ⟨{"a"}, {"\x27"}, {⟨"a", "\x27", "a"⟩}, "a", {"a"}⟩

/-- Text whose rules section contains the reserved three-apostrophe literal. -/
def txtTripleApos : String :=
  "(\x7ba\x7d,\x7b\x270\x27\x7d,\x7ba \x27\x27\x27 -> a\x7d,a,\x7ba\x7d)"

/-- Text with a whitespace-only rules section. -/
def txtWsRules : String :=
  "(\x7ba\x7d,\x7b\x270\x27\x7d,\x7b \x7d,a,\x7ba\x7d)"

/-- Text with a whitespace-only alphabet section. -/
def txtWsAlphabet : String :=
  "(\x7ba\x7d,\x7b \x7d,\x7ba \x270\x27 -> a\x7d,a,\x7ba\x7d)"

/-- Text with a whitespace-only final-states section. -/
def txtWsFinals : String :=
  "(\x7ba\x7d,\x7b\x270\x27\x7d,\x7ba \x270\x27 -> a\x7d,a,\x7b \x7d)"

/-- Text whose alphabet section lists the epsilon literal. -/
def txtEpsAlpha : String :=
  "(\x7ba\x7d,\x7b\x27\x27\x7d,\x7ba \x27\x27 -> a\x7d,a,\x7ba\x7d)"

/-- The automaton `txtEpsAlpha` constructs: epsilon is in its alphabet. -/
def faEps : FA := ⟨{"a"}, {""}, {⟨"a", "", "a"⟩}, "a", {"a"}⟩

/-- The well-specified automaton with no final state (accepted: it has exactly
one non-terminating state), built by `txtWsFinals`. -/
def faNoFinal : FA := ⟨{"a"}, {"0"}, {⟨"a", "0", "a"⟩}, "a", ∅⟩

/-- What one `minimize` turns `faNoFinal` into: the empty partition block has
become the state named by the empty string. -/
def faNoFinalMin : FA := ⟨{"", "a"}, {"0"}, {⟨"a", "0", "a"⟩}, "a", ∅⟩

/-- What a second `minimize` turns `faNoFinalMin` into: the empty-string state
is bundled into the non-final block and `a` is renamed `_a`. -/
def faNoFinalMin2 : FA := ⟨{"", "_a"}, {"0"}, {⟨"_a", "0", "_a"⟩}, "_a", ∅⟩

/-- The spec's non-terminating fixpoint example. -/
def faNts : FA := ⟨{"a", "b", "c"}, {"0"},
  {⟨"a", "0", "b"⟩, ⟨"b", "0", "b"⟩, ⟨"c", "0", "c"⟩}, "a", {"b"}⟩

/-- A small well-specified automaton, all of whose states are final. -/
def faAllFinal : FA :=
  ⟨{"a", "b"}, {"0"}, {⟨"a", "0", "b"⟩, ⟨"b", "0", "a"⟩}, "a", {"a", "b"}⟩

/-- A state can reach a final state by following zero or more rules. -/
inductive CanReachFinal (rules : Finset PyRule) (finals : Finset String) :
    String → Prop
  | base (s : String) : s ∈ finals → CanReachFinal rules finals s
  | step (s : String) (r : PyRule) : r ∈ rules → r.state = s →
      CanReachFinal rules finals r.next_state → CanReachFinal rules finals s

theorem ntsStep_fst (st : NtsState) :
    (ntsStep st).1 = if (ntsFired st).image (fun r => r.state) = ∅ then
      { st with copyRules := st.copyRules \ ntsFired st }
    else
      { st with term := st.term ∪ (ntsFired st).image (fun r => r.state),
                copyRules := st.copyRules \ ntsFired st } := by
  unfold ntsStep
  split <;> simp_all

theorem ntsStep_snd (st : NtsState) :
    (ntsStep st).2 = ((ntsFired st).image (fun r => r.state) ≠ ∅ : Bool) := by
  unfold ntsStep
  split <;> simp_all

theorem ntsStep_self (st : NtsState) : (ntsStep st).1.self = st.self := by
  rw [ntsStep_fst]
  split <;> rfl

theorem ntsStep_term_subset (st : NtsState) : st.term ⊆ (ntsStep st).1.term := by
  rw [ntsStep_fst]
  split
  · exact fun x h => h
  · exact fun x h => Finset.mem_union_left _ h

theorem ntsStep_copyRules_subset (st : NtsState) :
    (ntsStep st).1.copyRules ⊆ st.copyRules := by
  rw [ntsStep_fst]
  split <;> exact Finset.sdiff_subset

theorem ntsIter_self (fuel : Nat) : ∀ st, (ntsIter fuel st).self = st.self := by
  induction fuel with
  | zero => intro st; rfl
  | succ n ih =>
    intro st
    unfold ntsIter
    split
    · rw [ih, ntsStep_self]
    · exact ntsStep_self st

theorem ntsIter_term_subset (fuel : Nat) :
    ∀ st, st.term ⊆ (ntsIter fuel st).term := by
  induction fuel with
  | zero => intro st; exact fun x h => h
  | succ n ih =>
    intro st
    unfold ntsIter
    split
    · exact fun x h => ih _ (ntsStep_term_subset st h)
    · exact ntsStep_term_subset st

/-- Soundness of one step: everything in the resulting `term` can reach a
final state, provided everything already in `term` can and the live rules are
among the automaton's. -/
theorem ntsStep_term_sound (R : Finset PyRule) (F : Finset String) (st : NtsState)
    (hsub : st.copyRules ⊆ R)
    (hterm : ∀ t ∈ st.term, CanReachFinal R F t) :
    ∀ t ∈ (ntsStep st).1.term, CanReachFinal R F t := by
  rw [ntsStep_fst]
  split
  · exact hterm
  · intro t ht
    rcases Finset.mem_union.mp ht with h | h
    · exact hterm t h
    · obtain ⟨r, hr, hrt⟩ := Finset.mem_image.mp h
      have hrR : r ∈ R := hsub (Finset.mem_filter.mp hr).1
      have hnext : r.next_state ∈ st.term := (Finset.mem_filter.mp hr).2.2
      exact CanReachFinal.step t r hrR hrt (hterm _ hnext)

theorem ntsIter_term_sound (R : Finset PyRule) (F : Finset String) (fuel : Nat) :
    ∀ st, st.copyRules ⊆ R → (∀ t ∈ st.term, CanReachFinal R F t) →
      ∀ t ∈ (ntsIter fuel st).term, CanReachFinal R F t := by
  induction fuel with
  | zero => intro st _ hterm; exact hterm
  | succ n ih =>
    intro st hsub hterm
    unfold ntsIter
    split
    · exact ih _ ((ntsStep_copyRules_subset st).trans hsub)
        (ntsStep_term_sound R F st hsub hterm)
    · exact ntsStep_term_sound R F st hsub hterm

/-- The invariant that every already-consumed rule's source is terminating. -/
def NtsInv (R : Finset PyRule) (st : NtsState) : Prop :=
  ∀ r ∈ R, r ∉ st.copyRules → r.state ∈ st.term

/-- The exit property: `term` is closed under rule predecessors. -/
def NtsClosed (R : Finset PyRule) (st : NtsState) : Prop :=
  ∀ r ∈ R, r.next_state ∈ st.term → r.state ∈ st.term

theorem ntsStep_inv (R : Finset PyRule) (st : NtsState) (hinv : NtsInv R st) :
    NtsInv R (ntsStep st).1 := by
  rw [ntsStep_fst]
  split
  · intro r hrR hr
    next hempty =>
    have hfired : ntsFired st = ∅ := Finset.image_eq_empty.mp hempty
    simp only [Finset.mem_sdiff, not_and, hfired, Finset.not_mem_empty,
      not_false_iff, imp_true_iff, not_not] at hr
    by_cases hrc : r ∈ st.copyRules
    · exact absurd (hr hrc) (by simp [hfired])
    · exact hinv r hrR hrc
  · intro r hrR hr
    simp only [Finset.mem_sdiff, not_and, not_not] at hr
    by_cases hrc : r ∈ st.copyRules
    · have hrf : r ∈ ntsFired st := hr hrc
      exact Finset.mem_union_right _ (Finset.mem_image_of_mem _ hrf)
    · exact Finset.mem_union_left _ (hinv r hrR hrc)

/-- With fuel exceeding the number of live rules, the loop reaches its
fixpoint: the resulting terminating set is closed under rule predecessors. -/
theorem ntsIter_closed (R : Finset PyRule) : ∀ (fuel : Nat) (st : NtsState),
    st.copyRules.card < fuel → st.copyRules ⊆ R → NtsInv R st →
      NtsClosed R (ntsIter fuel st) := by
  intro fuel
  induction fuel with
  | zero => intro st h; omega
  | succ n ih =>
    intro st hcard hsub hinv
    unfold ntsIter
    split
    · next hcont =>
      rw [ntsStep_snd] at hcont
      have himg : (ntsFired st).image (fun r => r.state) ≠ ∅ := by
        simpa using hcont
      have hfired : (ntsFired st).Nonempty := by
        rw [Finset.nonempty_iff_ne_empty]
        intro h
        exact himg (by rw [h]; simp)
      have hss : st.copyRules \ ntsFired st ⊂ st.copyRules := by
        apply Finset.sdiff_ssubset _ hfired
        exact Finset.filter_subset _ _
      have hcr : (ntsStep st).1.copyRules = st.copyRules \ ntsFired st := by
        unfold ntsStep
        split <;> rfl
      have hcard' : (ntsStep st).1.copyRules.card < n := by
        rw [hcr]
        have hlt := Finset.card_lt_card hss
        omega
      exact ih _ hcard' ((ntsStep_copyRules_subset st).trans hsub)
        (ntsStep_inv R st hinv)
    · next hcont =>
      rw [ntsStep_snd] at hcont
      have himg : (ntsFired st).image (fun r => r.state) = ∅ := by
        by_contra h
        simp [h] at hcont
      have hfired : ntsFired st = ∅ := Finset.image_eq_empty.mp himg
      intro r hrR hnext
      rw [ntsStep_fst, if_pos himg] at hnext ⊢
      by_cases hrc : r ∈ st.copyRules
      · by_contra hstate
        have : r ∈ ntsFired st := by
          unfold ntsFired
          exact Finset.mem_filter.mpr ⟨hrc, hstate, hnext⟩
        simp [hfired] at this
      · exact hinv r hrR hrc

/-- The characterization of the computed terminating set: it is exactly the
set of strings that can reach a final state. -/
theorem ntsIter_term_iff (fa : FA) (s : String) :
    s ∈ (ntsIter (fa.rules.card + 1) ⟨fa, fa.final_states, fa.rules⟩).term ↔
      CanReachFinal fa.rules fa.final_states s := by
  constructor
  · intro h
    refine ntsIter_term_sound fa.rules fa.final_states _ _ ?_ ?_ s h
    · exact fun r hr => hr
    · exact fun t ht => CanReachFinal.base t ht
  · intro h
    have hclosed : NtsClosed fa.rules
        (ntsIter (fa.rules.card + 1) ⟨fa, fa.final_states, fa.rules⟩) := by
      refine ntsIter_closed fa.rules _ _ ?_ ?_ ?_
      · exact Nat.lt_succ_self _
      · exact fun r hr => hr
      · intro r hrR hrc
        exact absurd hrR hrc
    induction h with
    | base t ht =>
      exact ntsIter_term_subset _ ⟨fa, fa.final_states, fa.rules⟩ ht
    | step t r hrR hrt hreach ih =>
      exact hrt ▸ hclosed r hrR ih

theorem mem_msortStr (m : Multiset String) (x : String) :
    x ∈ msortStr m ↔ x ∈ m :=
  Quotient.inductionOn m (fun l => by
    show x ∈ List.insertionSort strSortRel l ↔ _
    rw [List.Perm.mem_iff (List.perm_insertionSort strSortRel l)]
    simp)

theorem mem_msortRule (m : Multiset PyRule) (x : PyRule) :
    x ∈ msortRule m ↔ x ∈ m :=
  Quotient.inductionOn m (fun l => by
    show x ∈ List.insertionSort ruleSortRel l ↔ _
    rw [List.Perm.mem_iff (List.perm_insertionSort ruleSortRel l)]
    simp)

theorem mem_sortedStrs (s : Finset String) (x : String) :
    x ∈ sortedStrs s ↔ x ∈ s :=
  mem_msortStr s.val x

theorem mem_sortedRules (s : Finset PyRule) (x : PyRule) :
    x ∈ sortedRules s ↔ x ∈ s :=
  mem_msortRule s.val x

theorem nodup_sortedStrs (s : Finset String) : (sortedStrs s).Nodup := by
  have := s.nodup
  revert this
  unfold sortedStrs msortStr
  refine Quotient.inductionOn s.val (fun l hl => ?_)
  have hp : (List.insertionSort strSortRel l).Perm l :=
    List.perm_insertionSort strSortRel l
  exact hp.nodup_iff.mpr hl

theorem mem_blockOf (s : Finset String) (x : String) :
    x ∈ blockOf s ↔ x ∈ s :=
  mem_sortedStrs s x

theorem nodup_blockOf (s : Finset String) : (blockOf s).Nodup :=
  nodup_sortedStrs s

/-- If the per-rule semantic loop succeeds, every listed rule passed its
membership checks. -/
theorem checkSemanticRules_mem (fa : FA) : ∀ l,
    checkSemanticRules fa l = Except.ok () →
    ∀ r ∈ l, r.input_symbol ∈ fa.alphabet ∧ r.state ∈ fa.states ∧
      r.next_state ∈ fa.states := by
  intro l
  induction l with
  | nil => intro _ r hr; cases hr
  | cons a rest ih =>
    intro h r hr
    unfold checkSemanticRules at h
    by_cases h1 : a.input_symbol ∉ fa.alphabet
    · simp [h1] at h
    by_cases h2 : a.state ∉ fa.states
    · simp [h1, h2] at h
    by_cases h3 : a.next_state ∉ fa.states
    · simp [h1, h2, h3] at h
    by_cases h4 : ¬ fa.final_states ⊆ fa.states
    · simp [h1, h2, h3, h4] at h
    simp only [h1, h2, h3, h4, if_false, if_neg, not_false_iff] at h
    rcases List.mem_cons.mp hr with rfl | hr'
    · push_neg at h1 h2 h3
      exact ⟨h1, h2, h3⟩
    · exact ih h r hr'

/-- If the whole semantic check succeeds, every rule of the automaton refers
only to known symbols and states. -/
theorem checkSemantic_mem (fa : FA) (h : checkSemantic fa = Except.ok ()) :
    ∀ r ∈ fa.rules, r.input_symbol ∈ fa.alphabet ∧ r.state ∈ fa.states ∧
      r.next_state ∈ fa.states := by
  intro r hr
  unfold checkSemantic at h
  by_cases h0 : fa.start_state ∉ fa.states
  · simp [h0] at h
  simp only [h0, if_neg, not_false_iff] at h
  exact checkSemanticRules_mem fa _ h r ((mem_sortedRules _ _).mpr hr)

/-- If the whole semantic check succeeds, the start state is a known state. -/
theorem checkSemantic_start (fa : FA) (h : checkSemantic fa = Except.ok ()) :
    fa.start_state ∈ fa.states := by
  unfold checkSemantic at h
  by_cases h0 : fa.start_state ∉ fa.states
  · simp [h0] at h
  · push_neg at h0; exact h0

/-- The acceptance conditions of the `WellSpecifiedFA` constructor, extracted. -/
theorem wsBuild_det_comp (fa fa' : FA)
    (h : WellSpecifiedFA.build fa = Except.ok fa') :
    fa.deterministic = true ∧ fa.complete = true := by
  unfold WellSpecifiedFA.build at h
  by_cases h1 : fa.deterministic = true
  · by_cases h2 : fa.complete = true
    · exact ⟨h1, h2⟩
    · simp [h1, h2] at h
  · simp [h1] at h

/-- Counting argument: a deterministic automaton whose rules mention only
known states and symbols, and which is complete, has exactly one rule per
(state, symbol) pair. -/
theorem rules_card_eq (fa : FA)
    (hdet : fa.deterministic = true) (hcomp : fa.complete = true)
    (hmem : ∀ r ∈ fa.rules, r.input_symbol ∈ fa.alphabet ∧ r.state ∈ fa.states ∧
      r.next_state ∈ fa.states) :
    fa.rules.card = fa.states.card * fa.alphabet.card := by
  have hpair : fa.rules.card =
      (fa.rules.image (fun r => (r.state, r.input_symbol))).card := by
    unfold FA.deterministic at hdet
    split at hdet
    · exact of_decide_eq_true hdet
    · cases hdet
  have himg : fa.rules.image (fun r => (r.state, r.input_symbol))
      = fa.states ×ˢ fa.alphabet := by
    apply Finset.Subset.antisymm
    · intro p hp
      obtain ⟨r, hr, hrp⟩ := Finset.mem_image.mp hp
      obtain ⟨hsym, hst, _⟩ := hmem r hr
      rw [← hrp]
      exact Finset.mem_product.mpr ⟨hst, hsym⟩
    · intro p hp
      obtain ⟨hs, ha⟩ := Finset.mem_product.mp hp
      have hc := of_decide_eq_true hcomp p.1 hs
      rw [← hc] at ha
      obtain ⟨r, hrf, hsym⟩ := Finset.mem_image.mp ha
      obtain ⟨hr, hst⟩ := Finset.mem_filter.mp hrf
      apply Finset.mem_image.mpr
      refine ⟨r, hr, ?_⟩
      rw [hst, hsym]
  rw [hpair, himg, Finset.card_product]

theorem dropWhile_of_all {p : Char → Bool} {cs : List Char}
    (h : cs.all p = true) : cs.dropWhile p = [] := by
  induction cs with
  | nil => rfl
  | cons c rest ih =>
    simp only [List.all_cons, Bool.and_eq_true] at h
    simp [List.dropWhile, h.1, ih h.2]

/-- A whitespace-only section cannot match any of the comma-list patterns
whose items start with a non-whitespace character. -/
theorem listMatch_of_all_space (itemAt : List Char → List (List Char × List Char))
    (hnil : itemAt [] = []) (cs : List Char) (h : cs.all isSpaceChar = true) :
    listMatch itemAt cs = false := by
  unfold listMatch listMatchAux
  rw [dropWhile_of_all h]
  simp [hnil]

theorem checkGetStates_ws (cs : List Char) (h : cs.all isSpaceChar = true) :
    checkGetStates cs = Except.ok ∅ := by
  simp [checkGetStates, h]

theorem checkGetAlphabet_ws (cs : List Char) (h : cs.all isSpaceChar = true) :
    checkGetAlphabet cs = Except.error (PyErr.synErr "bad alphabet definition") := by
  have hm : listMatch symItemAt cs = false :=
    listMatch_of_all_space symItemAt rfl cs h
  simp [checkGetAlphabet, hm]

theorem checkGetRules_ws (cs : List Char) (h : cs.all isSpaceChar = true) :
    checkGetRules cs = Except.error (PyErr.synErr "bad rules definition") := by
  have hm : listMatch ruleItemAt cs = false :=
    listMatch_of_all_space ruleItemAt rfl cs h
  simp [checkGetRules, hm]

theorem combinationsL_sublist {α : Type} : ∀ (l : List α) (k : Nat) (a : List α),
    a ∈ combinationsL k l → a.Sublist l := by
  intro l
  induction l with
  | nil =>
    intro k a ha
    cases k with
    | zero =>
      simp only [combinationsL, List.mem_singleton] at ha
      simp [ha]
    | succ k' => simp [combinationsL] at ha
  | cons x xs ih =>
    intro k a ha
    cases k with
    | zero =>
      simp only [combinationsL, List.mem_singleton] at ha
      simp [ha]
    | succ k' =>
      simp only [combinationsL, List.mem_append, List.mem_map] at ha
      rcases ha with ⟨b, hb, rfl⟩ | ha
      · exact (ih k' b hb).cons₂ x
      · exact (ih (k' + 1) a ha).cons x

theorem combinationsL_length {α : Type} : ∀ (l : List α) (k : Nat) (a : List α),
    a ∈ combinationsL k l → a.length = k := by
  intro l
  induction l with
  | nil =>
    intro k a ha
    cases k with
    | zero =>
      simp only [combinationsL, List.mem_singleton] at ha
      simp [ha]
    | succ k' => simp [combinationsL] at ha
  | cons x xs ih =>
    intro k a ha
    cases k with
    | zero =>
      simp only [combinationsL, List.mem_singleton] at ha
      simp [ha]
    | succ k' =>
      simp only [combinationsL, List.mem_append, List.mem_map] at ha
      rcases ha with ⟨b, hb, rfl⟩ | ha
      · simp [ih k' b hb]
      · exact ih (k' + 1) a ha

/-- Every bipartition `_gen_subsets` yields has the set difference as its
second part, over a proper nonempty combination. -/
theorem genSubsets_mem {l : List String} {p : List String × List String}
    (hp : p ∈ genSubsets l) :
    ∃ i, 1 ≤ i ∧ i < l.length ∧ p.1 ∈ combinationsL i l ∧
      p.2 = l.filter (fun x => decide (x ∉ p.1)) := by
  unfold genSubsets at hp
  simp only [List.mem_flatMap, List.mem_map] at hp
  obtain ⟨i, hi, sub, hsub, rfl⟩ := hp
  refine ⟨i, ?_, ?_, hsub, rfl⟩
  · rcases hn : l.length with _ | n
    · rw [hn] at hi; simp at hi
    · rw [hn, List.range_succ_eq_map] at hi
      simp only [List.drop_succ_cons, List.drop_zero, List.mem_map] at hi
      obtain ⟨j, _, rfl⟩ := hi
      omega
  · have := List.mem_of_mem_drop hi
    exact List.mem_range.mp this

/-- Over a duplicate-free list, the complement part of a `_gen_subsets`
bipartition is nonempty. -/
theorem genSubsets_snd_ne_nil {l : List String} (hl : l.Nodup)
    {p : List String × List String} (hp : p ∈ genSubsets l) : p.2 ≠ [] := by
  obtain ⟨i, hi1, hi2, hcomb, hsnd⟩ := genSubsets_mem hp
  intro hnil
  rw [hsnd] at hnil
  have hsubset : ∀ x ∈ l, x ∈ p.1 := by
    intro x hx
    have := List.filter_eq_nil_iff.mp hnil x hx
    simpa using this
  have hle : l.length ≤ p.1.length := by
    have h1 : l.toFinset.card = l.length := List.toFinset_card_of_nodup hl
    have h2 : l.toFinset ⊆ p.1.toFinset := by
      intro x hx
      exact List.mem_toFinset.mpr (hsubset x (List.mem_toFinset.mp hx))
    have h3 : l.toFinset.card ≤ p.1.toFinset.card := Finset.card_le_card h2
    have h4 : p.1.toFinset.card ≤ p.1.length := p.1.toFinset_card_le
    omega
  have := combinationsL_length l i p.1 hcomb
  omega

/-- If no bipartition in the list satisfies the split condition, the inner
loop leaves the working block set and the division flag unchanged. -/
theorem applySplits_nosplit (rulesQ1 : Finset PyRule) (Q1 : List String) :
    ∀ (lst : List (List String × List String)) (acc : List (List String) × Bool),
      (∀ p ∈ lst,
        (p.1.all (fun x => decide (x ∈ Q1)) &&
          !(p.2.any (fun x => decide (x ∈ Q1)))) = false) →
      applySplits rulesQ1 Q1 lst acc = Except.ok acc := by
  intro lst
  induction lst with
  | nil => intro acc _; rfl
  | cons p rest ih =>
    intro acc hcond
    obtain ⟨q1s, q2s⟩ := p
    have hp := hcond (q1s, q2s) (List.mem_cons_self _ rest)
    unfold applySplits
    rw [hp]
    simp only [Bool.false_eq_true, if_false]
    exact ih acc (fun q hq => hcond q (List.mem_cons_of_mem _ hq))

theorem rulesWithStatesSym_nil (rules : Finset PyRule) (sym : String) :
    rulesWithStatesSym rules [] sym = ∅ := by
  unfold rulesWithStatesSym
  apply Finset.filter_eq_empty_iff.mpr
  intro r _
  simp

theorem processQ1Block_nil (rules : Finset PyRule) (sym : String)
    (acc : List (List String) × Bool) :
    processQ1Block rules sym acc [] = Except.ok acc := by
  unfold processQ1Block
  rw [if_neg (by simp)]
  rw [rulesWithStatesSym_nil]
  rfl

/-- A block that already contains every rule destination can never be split:
the complement part of every candidate bipartition meets the block. -/
theorem processQ1Block_noSplit (rules : Finset PyRule) (sym : String)
    (acc : List (List String) × Bool) (Q1 : List String)
    (hQ : ∀ r ∈ rules, r.next_state ∈ Q1) :
    processQ1Block rules sym acc Q1 = Except.ok acc := by
  unfold processQ1Block
  by_cases hlen : Q1.length = 1
  · rw [if_pos hlen]
  · rw [if_neg hlen]
    apply applySplits_nosplit
    intro p hp
    have hnodup : (blockOf (nextStatesOf (rulesWithStatesSym rules Q1 sym))).Nodup :=
      nodup_blockOf _
    have hne := genSubsets_snd_ne_nil hnodup hp
    obtain ⟨i, _, _, _, hsnd⟩ := genSubsets_mem hp
    obtain ⟨y, hy⟩ := List.exists_mem_of_ne_nil p.2 hne
    have hyQ1 : y ∈ Q1 := by
      have hy' : y ∈ blockOf (nextStatesOf (rulesWithStatesSym rules Q1 sym)) := by
        rw [hsnd] at hy
        exact List.mem_of_mem_filter hy
      rw [mem_blockOf] at hy'
      obtain ⟨r, hr, hrny⟩ := Finset.mem_image.mp hy'
      have hrR : r ∈ rules := Finset.mem_of_mem_filter r hr
      exact hrny ▸ hQ r hrR
    have hany : p.2.any (fun x => decide (x ∈ Q1)) = true :=
      List.any_eq_true.mpr ⟨y, hy, by simpa using hyQ1⟩
    rw [hany]
    simp

theorem processSymbol_noSplit (rules : Finset PyRule) (Q1 : List String)
    (flag : Bool) (sym : String)
    (hQ : ∀ r ∈ rules, r.next_state ∈ Q1) :
    processSymbol rules [[], Q1] flag sym = Except.ok ([[], Q1], flag) := by
  unfold processSymbol
  show (processQ1Block rules sym ([[], Q1], flag) []).bind _ = _
  rw [processQ1Block_nil]
  show (processQ1Block rules sym ([[], Q1], flag) Q1).bind _ = _
  rw [processQ1Block_noSplit rules sym _ Q1 hQ]
  rfl

theorem processPass_noSplit (rules : Finset PyRule) (Q1 : List String)
    (hQ : ∀ r ∈ rules, r.next_state ∈ Q1) (alphaL : List String) :
    processPass rules alphaL [[], Q1] = Except.ok ([[], Q1], false) := by
  unfold processPass
  suffices h : ∀ syms : List String,
      syms.foldlM (fun acc sym => processSymbol rules acc.1 acc.2 sym)
        (([[], Q1], false) : List (List String) × Bool) =
        Except.ok ([[], Q1], false) from h alphaL
  intro syms
  induction syms with
  | nil => rfl
  | cons s rest ih =>
    show (processSymbol rules [[], Q1] false s).bind _ = _
    rw [processSymbol_noSplit rules Q1 false s hQ]
    exact ih

theorem refineLoop_stops (R : Finset PyRule) (alphaL : List String)
    (qm qm' : List (List String))
    (h : processPass R alphaL qm = Except.ok (qm', false)) (fuel : Nat) :
    refineLoop R alphaL (fuel + 1) qm = some (Except.ok qm') := by
  unfold refineLoop
  rw [h]

theorem initQm_allFinal (fa : FA) (hne : fa.states.Nonempty)
    (hfin : fa.final_states = fa.states) :
    initQm fa = [[], blockOf fa.states] := by
  unfold initQm
  rw [hfin, Finset.sdiff_self]
  have hbne : blockOf fa.states ≠ [] := by
    obtain ⟨x, hx⟩ := hne
    intro hnil
    have := (mem_blockOf fa.states x).mpr hx
    rw [hnil] at this
    cases this
  have h0 : blockOf (∅ : Finset String) = [] := rfl
  rw [h0]
  show insertBlock [] [blockOf fa.states] = _
  unfold insertBlock
  rw [if_neg (Ne.symm hbne)]
  rfl

/-- On an automaton whose states are all final, the refinement loop performs
no division at all (the complement block is empty, and every destination lies
inside the all-states block), so `minimize` stops after one pass and rebuilds
from the two initial blocks — one of which is empty. -/
theorem minimize_allFinal (fa : FA) (hne : fa.states.Nonempty)
    (hnext : ∀ r ∈ fa.rules, r.next_state ∈ fa.states)
    (hfin : fa.final_states = fa.states) (fuel : Nat) :
    fa.minimize (fuel + 1) =
      MinRes.ok (rebuildFA fa [[], blockOf fa.states]) ∧
    "" ∈ (rebuildFA fa [[], blockOf fa.states]).states := by
  have hQ : ∀ r ∈ fa.rules, r.next_state ∈ blockOf fa.states := by
    intro r hr
    exact (mem_blockOf _ _).mpr (hnext r hr)
  constructor
  · unfold FA.minimize
    rw [initQm_allFinal fa hne hfin,
      refineLoop_stops fa.rules (sortedStrs fa.alphabet) _ _
        (processPass_noSplit fa.rules (blockOf fa.states) hQ _) fuel]
  · show "" ∈ (rebuildFA fa [[], blockOf fa.states]).states
    unfold rebuildFA
    apply List.mem_toFinset.mpr
    apply List.mem_map.mpr
    exact ⟨[], List.mem_cons_self _ _, rfl⟩

set_option maxRecDepth 100000

/-- C1.  The claim states that re-parsing the canonical serialized form of any
automaton built from valid text yields an equal automaton, in particular when
the literal apostrophe occurs in the alphabet and in rule symbols.  The code
violates this: `txtApos` constructs `faApos` (alphabet and rule symbol are the
apostrophe), but `Rule.__str__` does not escape the symbol, so the serialized
rule reads `a ''' -> a`; re-parsing decodes `'''` as the reserved marker and
the rules checker's broken `str.format` call raises `IndexError` instead of
producing an automaton at all. -/
theorem claim_C1 :
    FiniteAutomata.build txtApos = Except.ok faApos ∧
    FiniteAutomata.build faApos.toStr = Except.error PyErr.indexError := by
  constructor
  · decide
  · decide

/-- C2.  The claim states that a rules section containing the three-apostrophe
literal fails with a syntax error reporting the rule and the symbol text.  The
code instead raises `IndexError`: the message template has two placeholders
but `.format` receives only the rule text (the symbol text is passed as the
exception's code argument because of a misplaced parenthesis). -/
theorem claim_C2 :
    FiniteAutomata.build txtTripleApos = Except.error PyErr.indexError := by
  decide

/-- C3 counterexample.  The claim states that a whitespace-only rules section
is accepted and yields the empty rule set; in fact construction fails with
the `bad rules definition` syntax error. -/
theorem claim_C3_counterexample :
    FiniteAutomata.build txtWsRules =
      Except.error (PyErr.synErr "bad rules definition") := by
  decide

/-- C3 amended.  Only the states and final-states sections accept
whitespace-only content (yielding the empty set — fatal for the states
section, which must be non-empty); a whitespace-only alphabet or rules
section is a syntax error naming that section.  A whitespace-only
final-states section is accepted end to end. -/
theorem claim_C3 :
    (∀ cs : List Char, cs.all isSpaceChar = true →
      checkGetStates cs = Except.ok ∅) ∧
    (∀ cs : List Char, cs.all isSpaceChar = true →
      checkGetAlphabet cs = Except.error (PyErr.synErr "bad alphabet definition")) ∧
    (∀ cs : List Char, cs.all isSpaceChar = true →
      checkGetRules cs = Except.error (PyErr.synErr "bad rules definition")) ∧
    FiniteAutomata.build txtWsFinals = Except.ok faNoFinal ∧
    FiniteAutomata.build txtWsAlphabet =
      Except.error (PyErr.synErr "bad alphabet definition") := by
  refine ⟨checkGetStates_ws, checkGetAlphabet_ws, checkGetRules_ws, ?_, ?_⟩
  · decide
  · decide

theorem claim_C3_witness :
    checkGetStates [' '] = Except.ok ∅ ∧
    checkGetAlphabet [' '] = Except.error (PyErr.synErr "bad alphabet definition") ∧
    checkGetRules [' '] = Except.error (PyErr.synErr "bad rules definition") :=
  ⟨claim_C3.1 [' '] (by decide), claim_C3.2.1 [' '] (by decide),
   claim_C3.2.2.1 [' '] (by decide)⟩

/-- C4 counterexample.  The claim states that epsilon is never a member of the
alphabet, in particular that an alphabet section listing `''` does not put
epsilon in.  In fact construction succeeds and the alphabet contains the
empty (epsilon) symbol. -/
theorem claim_C4_counterexample :
    FiniteAutomata.build txtEpsAlpha = Except.ok faEps ∧
    "" ∈ faEps.alphabet := by
  constructor
  · decide
  · decide

/-- C4 amended.  An alphabet section listing the literal `''` puts the
epsilon symbol (the empty string) into the alphabet: `_get_input_symbol`
decodes `''` to the empty symbol and `_check_get_alphabet` adds it to the set
like any other symbol. -/
theorem claim_C4 :
    getInputSymbol ['\x27', '\x27'] = some [] ∧
    checkGetAlphabet ['\x27', '\x27'] = Except.ok {""} := by
  constructor
  · decide
  · decide

/-- C5.  `get_nonterminating_states` returns exactly the states from which no
sequence of rules reaches a final state; on the spec's three-state example it
returns `{c}`. -/
theorem claim_C5 :
    (∀ (fa : FA) (s : String),
      s ∈ fa.get_nonterminating_states ↔
        s ∈ fa.states ∧ ¬ CanReachFinal fa.rules fa.final_states s) ∧
    faNts.get_nonterminating_states = {"c"} := by
  constructor
  · intro fa s
    show s ∈ (ntsIter (fa.rules.card + 1)
        ⟨fa, fa.final_states, fa.rules⟩).self.states \
      (ntsIter (fa.rules.card + 1) ⟨fa, fa.final_states, fa.rules⟩).term ↔ _
    rw [ntsIter_self, Finset.mem_sdiff, ntsIter_term_iff]
  · decide

/-- C6.  An automaton accepted by the well-specified constructor (after
passing the semantic checks of the `FiniteAutomata` constructor) has exactly
`|states| * |alphabet|` rules: determinism makes the (state, symbol) pair
projection injective on rules, and completeness makes it surjective onto the
product. -/
theorem claim_C6 (fa : FA) (hsem : checkSemantic fa = Except.ok ())
    (hws : WellSpecifiedFA.build fa = Except.ok fa) :
    fa.rules.card = fa.states.card * fa.alphabet.card := by
  obtain ⟨hdet, hcomp⟩ := wsBuild_det_comp fa fa hws
  exact rules_card_eq fa hdet hcomp (checkSemantic_mem fa hsem)

theorem claim_C6_witness :
    faNoFinal.rules.card = faNoFinal.states.card * faNoFinal.alphabet.card :=
  claim_C6 faNoFinal (by decide) (by decide)

/-- C7.  The claim states that for every well-specified automaton, minimizing
twice leaves the same states, alphabet, rules, start state and final states
as minimizing once.  The code violates this on the well-specified automaton
`faNoFinal` (one state, no final states — accepted, since it has exactly one
non-terminating state): the first `minimize` turns the empty partition block
into a state named by the empty string, and the second bundles that state
into the non-final block, renaming `a` to `_a` and rewriting the rules and
the start state.  Here the first and second minimization results are computed
for every sufficient fuel (the loop stabilizes after one pass in both runs). -/
theorem claim_C7 :
    faNoFinal.wellSpecified = true ∧
    WellSpecifiedFA.build faNoFinal = Except.ok faNoFinal ∧
    (∀ fuel : Nat, faNoFinal.minimize (fuel + 1) = MinRes.ok faNoFinalMin) ∧
    (∀ fuel : Nat, faNoFinalMin.minimize (fuel + 1) = MinRes.ok faNoFinalMin2) ∧
    faNoFinalMin2.states ≠ faNoFinalMin.states ∧
    faNoFinalMin2.rules ≠ faNoFinalMin.rules ∧
    faNoFinalMin2.start_state ≠ faNoFinalMin.start_state := by
  refine ⟨by decide, by decide, ?_, ?_, by decide, by decide, by decide⟩
  · intro fuel
    have hpass : processPass faNoFinal.rules (sortedStrs faNoFinal.alphabet)
        (initQm faNoFinal) = Except.ok (initQm faNoFinal, false) := by decide
    unfold FA.minimize
    rw [refineLoop_stops _ _ _ _ hpass fuel]
    exact congrArg MinRes.ok (by decide)
  · intro fuel
    have hpass : processPass faNoFinalMin.rules (sortedStrs faNoFinalMin.alphabet)
        (initQm faNoFinalMin) = Except.ok (initQm faNoFinalMin, false) := by decide
    unfold FA.minimize
    rw [refineLoop_stops _ _ _ _ hpass fuel]
    exact congrArg MinRes.ok (by decide)

/-- C8.  For every semantically valid, well-specified automaton whose
final-states set equals its states set, `minimize` (with any sufficient fuel;
the loop stabilizes after one pass) succeeds and puts the empty string — the
name `_connect_states` gives the empty partition block — into the states set,
and the empty string does not match the state-identifier grammar. -/
theorem claim_C8 (fa : FA) (hsem : checkSemantic fa = Except.ok ())
    (_hws : fa.wellSpecified = true) (hfin : fa.final_states = fa.states)
    (fuel : Nat) :
    ∃ res, fa.minimize (fuel + 1) = MinRes.ok res ∧ "" ∈ res.states ∧
      matchesStateToken "" = false := by
  have hne : fa.states.Nonempty := ⟨fa.start_state, checkSemantic_start fa hsem⟩
  have hnext : ∀ r ∈ fa.rules, r.next_state ∈ fa.states := fun r hr =>
    (checkSemantic_mem fa hsem r hr).2.2
  obtain ⟨h1, h2⟩ := minimize_allFinal fa hne hnext hfin fuel
  exact ⟨_, h1, h2, rfl⟩

theorem claim_C8_witness :
    ∃ res, faAllFinal.minimize 1 = MinRes.ok res ∧ "" ∈ res.states ∧
      matchesStateToken "" = false :=
  claim_C8 faAllFinal (by decide) (by decide) (by decide) 0

/-- C9 counterexample.  The claim states that the rendered error string is a
function of the exception's own kind and message alone, independent of how
many exceptions were constructed earlier.  In fact the class-level base
message accumulates: the same syntax error message renders differently when
one syntax exception was constructed earlier in the process. -/
theorem claim_C9_counterexample :
    runStr [ExcKind.syn] ExcKind.syn "bad states definition" ≠
      runStr [] ExcKind.syn "bad states definition" := by
  decide

/-- C9 amended.  `__str__` renders the accumulated class-level base message
followed by the instance's message: each earlier syntax/semantic exception
construction appends its marker to the shared `FAException._base_msg`, so the
rendering is a function of the whole construction history and the instance,
not of the instance alone. -/
theorem claim_C9 (priors : List ExcKind) (k : ExcKind) (msg : String) :
    runStr priors k msg = baseAfter priors ++ bumpMsg k ++ msg := by
  unfold runStr strException
  have h : baseAfter (priors ++ [k]) = baseAfter priors ++ bumpMsg k := by
    unfold baseAfter
    rw [List.foldl_append]
    rfl
  rw [h, String.append_assoc]

/-- C10.  `get_nonterminating_states` leaves the automaton unchanged: the
method's loop consumes only the private copies of the final-states set and
the rule set held in its `NtsState`, so the object it returns alongside the
result is the automaton it started from. -/
theorem claim_C10 (fa : FA) :
    fa.getNonterminatingStatesRun = (fa.get_nonterminating_states, fa) := by
  have h2 : fa.getNonterminatingStatesRun.2 = fa := by
    show (ntsIter (fa.rules.card + 1) ⟨fa, fa.final_states, fa.rules⟩).self = fa
    exact ntsIter_self _ _
  rw [Prod.ext_iff]
  exact ⟨rfl, h2⟩
